import Mathlib

set_option maxRecDepth 20000

/-!
Verification of the CFG-generation core of the SWE_API repository:
`parser.py` (`parse_c_code`, `process_code_fragment`, `find_matching_brace`)
and `cfg_generator.py` (`generate_cfg_from_ir`), shallowly embedded over
`List Char` / `String`.

The parser is a mutual recursion between `parse_c_code` (normalize +
tokenize on `{` `}` `;`) and `process_code_fragment` (if/else-if/else
chain flattening).  It is embedded as a single step function `pStep`
driven by a fuel counter (`pRun`); `parse_c_code` applies a fuel value
derived from a termination measure (`pMeasure`), which is proved
sufficient, so the fuel artifact is never observable.
-/

/-- Python's `\s` / `str.strip` whitespace class, restricted to ASCII:
space, tab, newline, carriage return, vertical tab, form feed. -/
def isSpaceChar (c : Char) : Bool :=
  c = ' ' || c = '\t' || c = '\n' || c = '\r' || c = '\x0b' || c = '\x0c'

/-- State machine for `re.sub(r'//.*', '', code)`: when the flag is true we
are inside a `//` comment and drop characters up to (but not including) the
next newline. -/
def scAux : Bool → List Char → List Char
  | _, [] => []
  | true, c :: r => if c = '\n' then '\n' :: scAux false r else scAux true r
  | false, '/' :: '/' :: r => scAux true r
  | false, c :: r => c :: scAux false r

/-- `re.sub(r'//.*', '', code)`: remove single-line comments. -/
def stripComments (l : List Char) : List Char := scAux false l

/-- State machine for `re.sub(r'\s+', ' ', code)`: the flag records whether
we are inside a whitespace run whose single replacement space was already
emitted. -/
def nwAux : Bool → List Char → List Char
  | _, [] => []
  | inRun, c :: r =>
    if isSpaceChar c then
      if inRun then nwAux true r else ' ' :: nwAux true r
    else c :: nwAux false r

/-- `re.sub(r'\s+', ' ', code)`: collapse every whitespace run to one space. -/
def normalizeWs (l : List Char) : List Char := nwAux false l

/-- Python `str.strip()`: drop whitespace from both ends. -/
def stripChars (l : List Char) : List Char :=
  ((l.dropWhile isSpaceChar).reverse.dropWhile isSpaceChar).reverse

/-- Both normalization passes of `parse_c_code` (lines 6-7 of parser.py). -/
def normed (code : List Char) : List Char := normalizeWs (stripComments code)

/-- Depth scan of `find_matching_brace`: increment on `{`, decrement on `}`,
return the current index when the depth reaches zero after a `}`. -/
def fmbScan : Int → Nat → List Char → Option Nat
  | _, _, [] => none
  | depth, i, c :: r =>
    if c = '{' then fmbScan (depth + 1) (i + 1) r
    else if c = '}' then
      if depth - 1 = 0 then some i else fmbScan (depth - 1) (i + 1) r
    else fmbScan depth (i + 1) r

/-- Does the string start with `{`?  (`code.startswith('{')`.) -/
def startsWithBrace : List Char → Bool
  | [] => false
  | c :: _ => c = '{'

/-- `find_matching_brace` (parser.py lines 124-139).  Python raises
`ValueError` when the input does not start with `{` or when no closing brace
balances the first one; the embedding returns `none` in exactly those
cases. -/
def find_matching_brace (code : List Char) : Option Nat :=
  if startsWithBrace code then fmbScan 0 0 code else none

/-- `re.match(r'\s*\((.*?)\)\s*(.*)', ...)` tail shared by the `if` and
`else if` patterns: skip whitespace, require `(`, take the (lazy) condition
up to the first `)`, and return the stripped condition together with the
stripped remainder after that `)`.  `none` when `(` or `)` is missing. -/
def parenMatch (l : List Char) : Option (List Char × List Char) :=
  match l.dropWhile isSpaceChar with
  | '(' :: r2 =>
    if r2.contains ')' then
      some (stripChars (r2.takeWhile (fun c => c != ')')),
            stripChars ((r2.dropWhile (fun c => c != ')')).drop 1))
    else none
  | _ => none

/-- `re.match(r'if\s*\((.*?)\)\s*(.*)', fragment, re.DOTALL)` on a fragment:
anchored at the start, literal `if`, then the parenthesis tail. -/
def ifMatch (f : List Char) : Option (List Char × List Char) :=
  match f with
  | 'i' :: 'f' :: rest => parenMatch rest
  | _ => none

/-- The literal `else if` (one space), as used by `rest.startswith('else if')`
and the `else if` regex. -/
def elseIfPat : List Char := ['e', 'l', 's', 'e', ' ', 'i', 'f']

/-- The literal `else`, as used by `rest.startswith('else')`. -/
def elsePat : List Char := ['e', 'l', 's', 'e']

/-- `re.search(r'(else if|else)', rest).start()`: index of the leftmost
occurrence of the substring `else` (any match of the alternation starts with
`else`, and the leftmost position wins). -/
def findElseIdx : List Char → Option Nat
  | [] => none
  | c :: r =>
    if elsePat.isPrefixOf (c :: r) then some 0
    else (findElseIdx r).map (· + 1)

/-- A Block record of the IR: `{"type": "statement", "lines": [...]}` or
`{"type": "decision", "condition": ...}`. -/
inductive Block where
  | statement (lines : List String)
  | decision (condition : String)
deriving DecidableEq, Repr

/-- Outcome of running the parser embedding: a block list, a raised
`ValueError` (`error`), or fuel exhaustion (an artifact of the fuel-based
embedding, proved unreachable for the fuel chosen by `parse_c_code`). -/
inductive PResult where
  | ok (blocks : List Block)
  | error
  | fuelOut
deriving DecidableEq, Repr

/-- The four mutually recursive control points of parser.py:
`parse_c_code` entry (`pcode`), its tokenizer loop with its accumulation
buffer (`ploop`), `process_code_fragment` (`pfrag`), and the
else-if/else `while rest:` loop of `process_code_fragment` (`pchain`). -/
inductive PCall where
  | pcode (code : List Char)
  | ploop (buf : List Char) (cs : List Char)
  | pfrag (fragment : List Char)
  | pchain (rest : List Char)

/-- Sequencing of two block-producing computations (`blocks.extend(...)`
twice): errors of the first computation propagate first. -/
def seqBlocks : PResult → PResult → PResult
  | .ok b1, .ok b2 => .ok (b1 ++ b2)
  | .ok _, .error => .error
  | .ok _, .fuelOut => .fuelOut
  | .error, _ => .error
  | .fuelOut, _ => .fuelOut

/-- Prepend one block (`blocks.append(...)` before further extends). -/
def consBlock (b : Block) : PResult → PResult
  | .ok bs => .ok (b :: bs)
  | r => r

/-- Tokenizer loop of `parse_c_code` (lines 16-42), one step: `buf` holds
the accumulated text of the current token, `cs` the remaining characters.
On `;` the buffer plus `;` is flushed; on `{`/`}` the buffer is flushed if
non-empty and the brace discarded; other characters accumulate.
Strip-at-flush is equivalent to Python's strip-per-token since every
delimiter flushes, so a buffer holds at most one text token. -/
def pStepLoop (recur : PCall → PResult) (buf : List Char) : List Char → PResult
  | [] =>
    -- lines 41-42: flush the trailing buffer if its strip is non-empty.
    if stripChars buf = [] then .ok []
    else recur (.pfrag (stripChars buf))
  | c :: cs' =>
    if c = ';' then
      -- lines 30-35.
      seqBlocks
        (recur (.pfrag (if stripChars buf = [] then [';']
          else stripChars buf ++ [' ', ';'])))
        (recur (.ploop [] cs'))
    else if c = '{' || c = '}' then
      -- lines 23-29.
      if stripChars buf = [] then recur (.ploop [] cs')
      else seqBlocks (recur (.pfrag (stripChars buf))) (recur (.ploop [] cs'))
    else
      -- lines 36-37.
      recur (.ploop (buf ++ [c]) cs')

/-- True-branch handling shared verbatim by `process_code_fragment` for the
leading `if` (lines 62-79) and for each `else if` (lines 90-104): `rest` is
the text after the extracted condition; process a brace-delimited body, or
the text up to the next `else`/`else if`, or everything; then continue with
the chain loop on what remains. -/
def pStepTrueBranch (recur : PCall → PResult) (rest : List Char) : PResult :=
  if startsWithBrace rest then
    match find_matching_brace rest with
    | none => .error
    | some e =>
      seqBlocks (recur (.pcode (stripChars ((rest.drop 1).take (e - 1)))))
                (recur (.pchain (stripChars (rest.drop (e + 1)))))
  else
    match findElseIdx rest with
    | some k =>
      seqBlocks (recur (.pcode (stripChars (rest.take k))))
                (recur (.pchain (stripChars (rest.drop k))))
    | none => recur (.pcode rest)

/-- `process_code_fragment` entry (lines 51-60 and 120-122): strip the
fragment; with no leading `if`, one Statement block; otherwise a Decision
block followed by the true branch and the else chain. -/
def pStepFrag (recur : PCall → PResult) (fragment : List Char) : PResult :=
  match ifMatch (stripChars fragment) with
  | none => .ok [.statement [String.mk (stripChars fragment)]]
  | some (cond, rest) =>
    consBlock (.decision (String.mk cond)) (pStepTrueBranch recur rest)

/-- The `while rest:` chain loop of `process_code_fragment`
(lines 82-118). -/
def pStepChain (recur : PCall → PResult) (r : List Char) : PResult :=
  if elseIfPat.isPrefixOf r then
    -- lines 83-104: `else if` with condition; a regex failure breaks.
    match parenMatch (r.drop 7) with
    | none => .ok []
    | some (cond, erest) =>
      consBlock (.decision (String.mk cond)) (pStepTrueBranch recur erest)
  else if elsePat.isPrefixOf r then
    -- lines 105-116: `else`; `else_body = m.group(1).strip()`.  With a
    -- brace-delimited body the loop continues on the remainder after the
    -- closing brace; otherwise rest becomes '' and the loop ends.
    if startsWithBrace (stripChars (r.drop 4)) then
      match find_matching_brace (stripChars (r.drop 4)) with
      | none => .error
      | some e =>
        seqBlocks
          (recur (.pcode (stripChars (((stripChars (r.drop 4)).drop 1).take (e - 1)))))
          (recur (.pchain (stripChars ((stripChars (r.drop 4)).drop (e + 1)))))
    else recur (.pcode (stripChars (r.drop 4)))
  else .ok []  -- lines 117-118: break

/-- One step of the parser, with `recur` standing for the recursive calls. -/
def pStep (recur : PCall → PResult) : PCall → PResult
  | .pcode code =>
    -- parse_c_code lines 6-16: normalize, then run the token loop with an
    -- empty buffer.
    recur (.ploop [] (normed code))
  | .ploop buf cs => pStepLoop recur buf cs
  | .pfrag fragment => pStepFrag recur fragment
  | .pchain r => pStepChain recur r

/-- Run the parser with the given fuel; every recursive call consumes one
unit.  Defined by `Nat.rec` so that concrete inputs evaluate by kernel
reduction. -/
def pRun (fuel : Nat) : PCall → PResult :=
  Nat.rec (motive := fun _ => PCall → PResult)
    (fun _ => .fuelOut) (fun _ ih => pStep ih) fuel

/-- Squaring, kept as multiplication for arithmetic lemmas. -/
def sqN (n : Nat) : Nat := n * n

/-- Termination measure on parser calls.  It strictly decreases along every
recursive call reachable from `parse_c_code`, hence using it as the initial
fuel makes `PResult.fuelOut` unreachable. -/
def pMeasure : PCall → Nat
  | .pcode code => sqN (2 * (normed code).length + 7) + (normed code).length + 1
  | .ploop buf cs => sqN (2 * (buf.length + cs.length) + 7) + cs.length
  | .pfrag f => sqN (2 * f.length + 2)
  | .pchain r => sqN (2 * r.length + 3)

/-- `parse_c_code` (parser.py lines 4-44) on a source string. -/
def parse_c_code (s : String) : PResult :=
  pRun (pMeasure (.pcode s.data)) (.pcode s.data)

/-- `CFGNode` (cfg_generator.py lines 4-8). -/
structure CFGNode where
  id : Nat
  lines : List String
  type : String
  label : Option String
deriving DecidableEq, Repr

/-- `CFGEdge` (cfg_generator.py lines 10-14). -/
structure CFGEdge where
  from_node : Nat
  to_node : Nat
  label : String
  color : String
deriving DecidableEq, Repr

/-- Node built from one Block with a fresh id (lines 29-33). -/
def mkNode (nid : Nat) : Block → CFGNode
  | .decision c => ⟨nid, [c], "decision", some c⟩
  | .statement ls => ⟨nid, ls, "statement", none⟩

/-- Body of the edge synthesis loop (cfg_generator.py lines 43-50) at one
position: `current` and `next_node` are `nodes[i]` and `nodes[i+1]`, and
`rest` is `nodes[i+2:]` (so `rest` non-empty is `i + 2 < len(nodes)`). -/
def emitFrom (current next_node : CFGNode) (rest : List CFGNode) : List CFGEdge :=
  if current.type = "decision" then
    CFGEdge.mk current.id next_node.id "True" "#22c55e" ::
      (match rest with
       | n2 :: _ => [CFGEdge.mk current.id n2.id "False" "#ef4444"]
       | [] => [])
  else [CFGEdge.mk current.id next_node.id "" "#6b7280"]

/-- Edge synthesis loop (lines 42-50): one pass over adjacent positions of
the node ordering; a decision node gets a `True` edge to its successor and,
if a node exists two ahead, a `False` edge to it; other nodes get one plain
edge to their successor. -/
def buildEdges : List CFGNode → List CFGEdge
  | current :: next_node :: rest =>
    emitFrom current next_node rest ++ buildEdges (next_node :: rest)
  | _ => []

/-- One iteration of the node-creation loop (lines 29-33): append the node
for the next block and advance the shared id counter (`next_id`). -/
def genStep (acc : List CFGNode × Nat) (b : Block) : List CFGNode × Nat :=
  (acc.1 ++ [mkNode acc.2 b], acc.2 + 1)

/-- `generate_cfg_from_ir` (cfg_generator.py lines 16-55).  The id counter
starts at 0, block nodes are created first (ids `0..N-1`), then Entry and
Exit take ids `N` and `N+1`; Entry is inserted at the front and Exit
appended at the back of the node ordering before edge synthesis. -/
def generate_cfg_from_ir (blocks : List Block) : List CFGNode × List CFGEdge :=
  let bodyAndId := blocks.foldl genStep ([], 0)
  let entry_node : CFGNode := ⟨bodyAndId.2, [], "entry", some "START"⟩
  let exit_node : CFGNode := ⟨bodyAndId.2 + 1, [], "exit", some "EXIT"⟩
  let nodes := entry_node :: bodyAndId.1 ++ [exit_node]
  (nodes, buildEdges nodes)

/-- The full `/generate-cfg` pipeline (main.py lines 19-25): parse, then
build the graph; a parser error aborts the request with no partial result. -/
def generate_cfg (s : String) : Option (List CFGNode × List CFGEdge) :=
  match parse_c_code s with
  | .ok bs => some (generate_cfg_from_ir bs)
  | _ => none

/-- The block-derived nodes, ids assigned consecutively from `k`. -/
def bodyNodes : Nat → List Block → List CFGNode
  | _, [] => []
  | k, b :: bs => mkNode k b :: bodyNodes (k + 1) bs

/-- The node ordering returned by `generate_cfg_from_ir`: Entry (id `N`)
first, the block nodes (ids `0..N-1`) in order, Exit (id `N+1`) last. -/
def cfgNodes (blocks : List Block) : List CFGNode :=
  CFGNode.mk blocks.length [] "entry" (some "START") ::
    bodyNodes 0 blocks ++ [CFGNode.mk (blocks.length + 1) [] "exit" (some "EXIT")]

/-- Running brace depth of a string: occurrences of `{` minus occurrences
of `}`. -/
def braceDepth (l : List Char) : Int :=
  (l.count '{' : Int) - (l.count '}' : Int)

/-- Position `j` is a zero-crossing: the character there is `}` and the
depth of the prefix through it is zero. -/
def braceCrossing (l : List Char) (j : Nat) : Prop :=
  l[j]? = some '}' ∧ braceDepth (l.take (j + 1)) = 0

instance (l : List Char) (j : Nat) : Decidable (braceCrossing l j) := by
  unfold braceCrossing
  infer_instance

/-- Which calls keep the parser away from `find_matching_brace`: the
tokenizer buffer and every fragment/chain string contain no `{`. -/
def goodCall : PCall → Prop
  | .pcode _ => True
  | .ploop buf _ => ('{' : Char) ∉ buf
  | .pfrag f => ('{' : Char) ∉ f
  | .pchain r => ('{' : Char) ∉ r

theorem pRun_zero (c : PCall) : pRun 0 c = .fuelOut := rfl

theorem pRun_succ (fuel : Nat) : pRun (fuel + 1) = pStep (pRun fuel) := rfl

/-! ## Structure of the node list -/

theorem foldl_genStep (bs : List Block) :
    ∀ (ns : List CFGNode) (k : Nat),
      bs.foldl genStep (ns, k) = (ns ++ bodyNodes k bs, k + bs.length) := by
  induction bs with
  | nil => intro ns k; simp [bodyNodes]
  | cons b bs ih =>
    intro ns k
    simp only [List.foldl_cons, genStep, ih, bodyNodes, List.length_cons]
    rw [Prod.mk.injEq]
    constructor
    · simp
    · omega

theorem generate_cfg_from_ir_eq (blocks : List Block) :
    generate_cfg_from_ir blocks =
      (cfgNodes blocks, buildEdges (cfgNodes blocks)) := by
  unfold generate_cfg_from_ir cfgNodes
  rw [foldl_genStep blocks [] 0]
  simp

theorem mkNode_id (k : Nat) (b : Block) : (mkNode k b).id = k := by
  cases b <;> rfl

theorem mkNode_type (k : Nat) (b : Block) :
    (mkNode k b).type = "statement" ∨ (mkNode k b).type = "decision" := by
  cases b <;> simp [mkNode]

theorem bodyNodes_length (bs : List Block) :
    ∀ k, (bodyNodes k bs).length = bs.length := by
  induction bs with
  | nil => intro k; rfl
  | cons b bs ih => intro k; simp [bodyNodes, ih]

theorem bodyNodes_map_id (bs : List Block) :
    ∀ k, (bodyNodes k bs).map (·.id) = List.range' k bs.length := by
  induction bs with
  | nil => intro k; rfl
  | cons b bs ih =>
    intro k
    simp [bodyNodes, List.range'_succ, mkNode_id, ih]

theorem bodyNodes_mem_type (bs : List Block) :
    ∀ k n, n ∈ bodyNodes k bs → n.type = "statement" ∨ n.type = "decision" := by
  induction bs with
  | nil => intro k n h; simp [bodyNodes] at h
  | cons b bs ih =>
    intro k n h
    rcases List.mem_cons.mp h with rfl | h
    · exact mkNode_type k b
    · exact ih (k + 1) n h

theorem cfgNodes_length (blocks : List Block) :
    (cfgNodes blocks).length = blocks.length + 2 := by
  simp [cfgNodes, bodyNodes_length]

theorem cfgNodes_map_id (blocks : List Block) :
    (cfgNodes blocks).map (·.id) =
      blocks.length :: (List.range blocks.length ++ [blocks.length + 1]) := by
  simp [cfgNodes, bodyNodes_map_id, List.range_eq_range']

theorem cfgNodes_id_nodup (blocks : List Block) :
    ((cfgNodes blocks).map (·.id)).Nodup := by
  rw [cfgNodes_map_id]
  refine List.Nodup.cons ?_ (List.Nodup.append (List.nodup_range _)
    (List.nodup_singleton _) ?_)
  · simp only [List.mem_append, List.mem_range, List.mem_singleton]
    omega
  · intro a ha hb
    simp only [List.mem_range] at ha
    simp only [List.mem_singleton] at hb
    omega

/-! ## Edge synthesis lemmas -/

theorem buildEdges_cons (c n : CFGNode) (rest : List CFGNode) :
    buildEdges (c :: n :: rest) = emitFrom c n rest ++ buildEdges (n :: rest) := rfl

theorem emitFrom_from_eq (c n : CFGNode) (rest : List CFGNode) :
    ∀ e ∈ emitFrom c n rest, e.from_node = c.id := by
  intro e he
  unfold emitFrom at he
  split at he
  · rcases List.mem_cons.mp he with rfl | he
    · rfl
    · cases rest with
      | nil => simp at he
      | cons n2 t => rcases List.mem_singleton.mp he with rfl; rfl
  · rcases List.mem_singleton.mp he with rfl; rfl

theorem emitFrom_to_mem (c n : CFGNode) (rest : List CFGNode) :
    ∀ e ∈ emitFrom c n rest, e.to_node ∈ (n :: rest).map (·.id) := by
  intro e he
  unfold emitFrom at he
  split at he
  · rcases List.mem_cons.mp he with rfl | he
    · exact List.mem_cons_self _ _
    · cases rest with
      | nil => simp at he
      | cons n2 t =>
        rcases List.mem_singleton.mp he with rfl
        simp
  · rcases List.mem_singleton.mp he with rfl
    exact List.mem_cons_self _ _

theorem buildEdges_mem_ids (ns : List CFGNode) :
    ∀ e ∈ buildEdges ns,
      e.from_node ∈ ns.map (·.id) ∧ e.to_node ∈ ns.map (·.id) := by
  induction ns with
  | nil => intro e he; simp [buildEdges] at he
  | cons c tail ih =>
    cases tail with
    | nil => intro e he; simp [buildEdges] at he
    | cons n rest =>
      intro e he
      rw [buildEdges_cons, List.mem_append] at he
      rcases he with he | he
      · refine ⟨?_, ?_⟩
        · rw [emitFrom_from_eq c n rest e he]
          exact List.mem_cons_self _ _
        · exact List.mem_cons_of_mem _ (emitFrom_to_mem c n rest e he)
      · obtain ⟨h1, h2⟩ := ih e he
        exact ⟨List.mem_cons_of_mem _ h1, List.mem_cons_of_mem _ h2⟩

theorem buildEdges_no_self_loop (ns : List CFGNode) :
    ((ns.map (·.id)).Nodup) →
    ∀ e ∈ buildEdges ns, e.from_node ≠ e.to_node := by
  induction ns with
  | nil => intro _ e he; simp [buildEdges] at he
  | cons c tail ih =>
    cases tail with
    | nil => intro _ e he; simp [buildEdges] at he
    | cons n rest =>
      intro hnd e he
      rw [buildEdges_cons, List.mem_append] at he
      rcases he with he | he
      · rw [emitFrom_from_eq c n rest e he]
        have hto := emitFrom_to_mem c n rest e he
        have hni : c.id ∉ ((n :: rest).map (·.id)) :=
          (List.nodup_cons.mp (by simpa using hnd)).1
        intro hc
        exact hni (hc ▸ hto)
      · exact ih (List.Nodup.of_cons (by simpa using hnd)) e he

theorem filter_from_eq_nil (ns : List CFGNode) (x : Nat)
    (h : x ∉ ns.map (·.id)) :
    (buildEdges ns).filter (fun e => e.from_node == x) = [] := by
  rw [List.filter_eq_nil_iff]
  intro e he
  have := (buildEdges_mem_ids ns e he).1
  simp only [beq_iff_eq]
  intro hc
  exact h (hc ▸ this)

/-- The edges whose source is the node at position `i` are exactly the
edges emitted at position `i` of the loop. -/
theorem filter_from_buildEdges (ns : List CFGNode) :
    ∀ (i : Nat) (cur nxt : CFGNode),
      ((ns.map (·.id)).Nodup) → ns[i]? = some cur → ns[i + 1]? = some nxt →
      (buildEdges ns).filter (fun e => e.from_node == cur.id) =
        emitFrom cur nxt (ns.drop (i + 2)) := by
  induction ns with
  | nil => intro i cur nxt _ h0 _; simp at h0
  | cons c tail ih =>
    intro i cur nxt hnd h0 h1
    cases tail with
    | nil =>
      rcases i with _ | i <;> simp at h1
    | cons n rest =>
      rw [buildEdges_cons, List.filter_append]
      rcases i with _ | i
      · rw [List.getElem?_cons_zero, Option.some_inj] at h0
        rw [List.getElem?_cons_succ, List.getElem?_cons_zero, Option.some_inj] at h1
        subst h0; subst h1
        have hni : c.id ∉ ((n :: rest).map (·.id)) :=
          (List.nodup_cons.mp (by simpa using hnd)).1
        rw [List.filter_eq_self.mpr, filter_from_eq_nil (n :: rest) c.id hni,
          List.append_nil]
        · rfl
        · intro e he
          rw [emitFrom_from_eq c n rest e he]
          exact beq_self_eq_true _
      · rw [List.getElem?_cons_succ] at h0
        rw [List.getElem?_cons_succ] at h1
        have hnd' : (((n :: rest)).map (·.id)).Nodup :=
          List.Nodup.of_cons (by simpa using hnd)
        have hcmem : cur ∈ n :: rest := by
          have hlt := (List.getElem?_eq_some_iff.mp h0).1
          obtain ⟨hl, rfl⟩ := List.getElem?_eq_some_iff.mp h0
          exact List.getElem_mem hl
        have hcne : (e : CFGEdge) → e ∈ emitFrom c n rest →
            ¬(e.from_node == cur.id) = true := by
          intro e he hc
          rw [emitFrom_from_eq c n rest e he] at hc
          have : c.id = cur.id := by simpa using hc
          have hni : c.id ∉ ((n :: rest).map (·.id)) :=
            (List.nodup_cons.mp (by simpa using hnd)).1
          exact hni (this ▸ List.mem_map_of_mem (·.id) hcmem)
        rw [List.filter_eq_nil_iff.mpr hcne, List.nil_append,
          ih i cur nxt hnd' h0 h1]
        rfl

theorem drop_of_getElem?_some {α : Type} {l : List α} {k : Nat} {a : α}
    (h : l[k]? = some a) : l.drop k = a :: l.drop (k + 1) := by
  obtain ⟨hk, rfl⟩ := List.getElem?_eq_some_iff.mp h
  exact List.drop_eq_getElem_cons hk

/-- Every node that is not the Exit node occupies a position that has a
successor in the node ordering. -/
theorem cfgNodes_mem_pos (blocks : List Block) (n : CFGNode)
    (hn : n ∈ cfgNodes blocks) (hne : n.type ≠ "exit") :
    ∃ i, (cfgNodes blocks)[i]? = some n ∧ i + 1 < (cfgNodes blocks).length := by
  unfold cfgNodes at hn
  rcases List.mem_cons.mp hn with rfl | hn
  · refine ⟨0, by rw [cfgNodes]; exact List.getElem?_cons_zero, ?_⟩
    rw [cfgNodes_length]
    omega
  · rcases List.mem_append.mp hn with hn | hn
    · obtain ⟨j, hj, he⟩ := List.getElem_of_mem hn
      have hjb : j < blocks.length := by simpa [bodyNodes_length] using hj
      refine ⟨j + 1, ?_, ?_⟩
      · show (CFGNode.mk blocks.length [] "entry" (some "START") ::
          (bodyNodes 0 blocks ++
            [CFGNode.mk (blocks.length + 1) [] "exit" (some "EXIT")]))[j + 1]? = some n
        rw [List.getElem?_cons_succ, List.getElem?_append_left
          (by simpa [bodyNodes_length] using hjb), List.getElem?_eq_getElem hj, he]
      · rw [cfgNodes_length]
        omega
    · rcases List.mem_singleton.mp hn with rfl
      exact absurd rfl hne

/-! ## Claims C5, C6, C7 -/

/-- C5: node ids are assigned in creation order from 0: the block nodes get
ids `0..N-1` in list order, Entry gets id `N` and Exit id `N+1` (the two
highest), even though Entry is first and Exit last in the node ordering
(first node has type `entry` and id `N`, last has type `exit`, id `N+1`). -/
theorem claim5_id_assignment (blocks : List Block) :
    ((generate_cfg_from_ir blocks).1).map (·.id) =
      blocks.length :: (List.range blocks.length ++ [blocks.length + 1]) ∧
    ((generate_cfg_from_ir blocks).1).head? =
      some ⟨blocks.length, [], "entry", some "START"⟩ ∧
    ((generate_cfg_from_ir blocks).1).getLast? =
      some ⟨blocks.length + 1, [], "exit", some "EXIT"⟩ := by
  rw [generate_cfg_from_ir_eq]
  refine ⟨cfgNodes_map_id blocks, rfl, ?_⟩
  show (CFGNode.mk blocks.length [] "entry" (some "START") ::
    (bodyNodes 0 blocks ++ [CFGNode.mk (blocks.length + 1) [] "exit" (some "EXIT")])).getLast?
      = _
  rw [← List.cons_append, List.getLast?_concat]

/-- C6: for every Block list the node list has `len(blocks) + 2` entries,
the first of type `entry` and the last of type `exit`; the empty source
parses to the empty Block list, and the empty Block list yields exactly the
two nodes Entry/Exit and the single plain edge between them (and, the
function being total, no error is raised). -/
theorem claim6_node_count (blocks : List Block) :
    ((generate_cfg_from_ir blocks).1).length = blocks.length + 2 ∧
    ((generate_cfg_from_ir blocks).1).head?.map (·.type) = some "entry" ∧
    ((generate_cfg_from_ir blocks).1).getLast?.map (·.type) = some "exit" ∧
    parse_c_code "" = PResult.ok [] ∧
    generate_cfg_from_ir [] =
      ([⟨0, [], "entry", some "START"⟩, ⟨1, [], "exit", some "EXIT"⟩],
       [⟨0, 1, "", "#6b7280"⟩]) := by
  rw [generate_cfg_from_ir_eq]
  refine ⟨cfgNodes_length blocks, rfl, ?_, by decide, by decide⟩
  show ((CFGNode.mk blocks.length [] "entry" (some "START") ::
    (bodyNodes 0 blocks ++ [CFGNode.mk (blocks.length + 1) [] "exit" (some "EXIT")])).getLast?).map (·.type)
      = _
  rw [← List.cons_append, List.getLast?_concat]
  rfl

/-- C4: in the node ordering produced by `generate_cfg_from_ir`, for every
position `i` with a successor: a Decision node at `i` emits a `True` edge
(green, `#22c55e`) to the node at `i+1` and, exactly when a node exists at
`i+2`, a `False` edge (red, `#ef4444`) to it; a non-Decision node at `i`
emits exactly one plain (empty-label, gray `#6b7280`) edge to its
successor.  Consequently a Decision node's outgoing edges contain exactly
one `True` edge and at most one `False` edge, and a non-Decision non-Exit
node has exactly one outgoing edge; moreover every non-Exit node does
occupy a position with a successor, so these rules cover every node. -/
theorem claim4_edge_synthesis (blocks : List Block) (i : Nat) (cur nxt : CFGNode)
    (h0 : ((generate_cfg_from_ir blocks).1)[i]? = some cur)
    (h1 : ((generate_cfg_from_ir blocks).1)[i + 1]? = some nxt) :
    (cur.type = "decision" →
      CFGEdge.mk cur.id nxt.id "True" "#22c55e" ∈ (generate_cfg_from_ir blocks).2 ∧
      (∀ n2, ((generate_cfg_from_ir blocks).1)[i + 2]? = some n2 →
        CFGEdge.mk cur.id n2.id "False" "#ef4444" ∈ (generate_cfg_from_ir blocks).2) ∧
      (((generate_cfg_from_ir blocks).1)[i + 2]? = none →
        ∀ e ∈ (generate_cfg_from_ir blocks).2, e.from_node = cur.id →
          e.label ≠ "False") ∧
      (((generate_cfg_from_ir blocks).2.filter
          (fun e => e.from_node == cur.id)).filter
            (fun e => e.label == "True")).length = 1 ∧
      (((generate_cfg_from_ir blocks).2.filter
          (fun e => e.from_node == cur.id)).filter
            (fun e => e.label == "False")).length ≤ 1) ∧
    (cur.type ≠ "decision" →
      CFGEdge.mk cur.id nxt.id "" "#6b7280" ∈ (generate_cfg_from_ir blocks).2 ∧
      ((generate_cfg_from_ir blocks).2.filter
        (fun e => e.from_node == cur.id)).length = 1) ∧
    (∀ n ∈ (generate_cfg_from_ir blocks).1, n.type ≠ "exit" →
      ∃ j m, ((generate_cfg_from_ir blocks).1)[j]? = some n ∧
        ((generate_cfg_from_ir blocks).1)[j + 1]? = some m) := by
  simp only [generate_cfg_from_ir_eq] at h0 h1 ⊢
  have hnd := cfgNodes_id_nodup blocks
  have hfil := filter_from_buildEdges (cfgNodes blocks) i cur nxt hnd h0 h1
  refine ⟨?_, ?_, ?_⟩
  · intro hdec
    refine ⟨?_, ?_, ?_, ?_, ?_⟩
    · have hm : CFGEdge.mk cur.id nxt.id "True" "#22c55e" ∈
          (buildEdges (cfgNodes blocks)).filter (fun e => e.from_node == cur.id) := by
        rw [hfil]
        unfold emitFrom
        rw [if_pos hdec]
        exact List.mem_cons_self _ _
      exact List.mem_of_mem_filter hm
    · intro n2 h2
      have hdrop := drop_of_getElem?_some h2
      have hm : CFGEdge.mk cur.id n2.id "False" "#ef4444" ∈
          (buildEdges (cfgNodes blocks)).filter (fun e => e.from_node == cur.id) := by
        rw [hfil, hdrop]
        unfold emitFrom
        rw [if_pos hdec]
        exact List.mem_cons_of_mem _ (List.mem_singleton.mpr rfl)
      exact List.mem_of_mem_filter hm
    · intro h2 e he hef hlab
      have hdrop : (cfgNodes blocks).drop (i + 2) = [] :=
        List.drop_eq_nil_of_le (List.getElem?_eq_none_iff.mp h2)
      have hm : e ∈ (buildEdges (cfgNodes blocks)).filter
          (fun e => e.from_node == cur.id) :=
        List.mem_filter.mpr ⟨he, by simp [hef]⟩
      rw [hfil, hdrop] at hm
      unfold emitFrom at hm
      rw [if_pos hdec] at hm
      rcases List.mem_cons.mp hm with rfl | hm
      · simp at hlab
      · simp at hm
    · rw [hfil]
      unfold emitFrom
      rw [if_pos hdec]
      cases hdr : (cfgNodes blocks).drop (i + 2) with
      | nil => rfl
      | cons n2 t => rfl
    · rw [hfil]
      unfold emitFrom
      rw [if_pos hdec]
      cases hdr : (cfgNodes blocks).drop (i + 2) with
      | nil => simp
      | cons n2 t => simp
  · intro hndec
    constructor
    · have hm : CFGEdge.mk cur.id nxt.id "" "#6b7280" ∈
          (buildEdges (cfgNodes blocks)).filter (fun e => e.from_node == cur.id) := by
        rw [hfil]
        unfold emitFrom
        rw [if_neg hndec]
        exact List.mem_singleton.mpr rfl
      exact List.mem_of_mem_filter hm
    · rw [hfil]
      unfold emitFrom
      rw [if_neg hndec]
      rfl
  · intro n hn hne
    obtain ⟨j, hj, hlt⟩ := cfgNodes_mem_pos blocks n hn hne
    exact ⟨j, (cfgNodes blocks)[j + 1], hj, List.getElem?_eq_getElem hlt⟩

/-- C4 witness: instantiate the edge-synthesis rules at the graph of the
single block list `[Decision "x"]`, position 1 (the decision node, id 0,
successor the Exit node, id 2). -/
theorem claim4_witness :
    ((generate_cfg_from_ir [Block.decision "x"]).1)[1]? =
      some ⟨0, ["x"], "decision", some "x"⟩ ∧
    ((generate_cfg_from_ir [Block.decision "x"]).1)[2]? =
      some ⟨2, [], "exit", some "EXIT"⟩ ∧
    (((⟨0, ["x"], "decision", some "x"⟩ : CFGNode).type = "decision" →
      CFGEdge.mk 0 2 "True" "#22c55e" ∈ (generate_cfg_from_ir [Block.decision "x"]).2 ∧
      (∀ n2, ((generate_cfg_from_ir [Block.decision "x"]).1)[1 + 2]? = some n2 →
        CFGEdge.mk 0 n2.id "False" "#ef4444" ∈
          (generate_cfg_from_ir [Block.decision "x"]).2) ∧
      (((generate_cfg_from_ir [Block.decision "x"]).1)[1 + 2]? = none →
        ∀ e ∈ (generate_cfg_from_ir [Block.decision "x"]).2, e.from_node = 0 →
          e.label ≠ "False") ∧
      (((generate_cfg_from_ir [Block.decision "x"]).2.filter
          (fun e => e.from_node == 0)).filter
            (fun e => e.label == "True")).length = 1 ∧
      (((generate_cfg_from_ir [Block.decision "x"]).2.filter
          (fun e => e.from_node == 0)).filter
            (fun e => e.label == "False")).length ≤ 1) ∧
     ((⟨0, ["x"], "decision", some "x"⟩ : CFGNode).type ≠ "decision" →
      CFGEdge.mk 0 2 "" "#6b7280" ∈ (generate_cfg_from_ir [Block.decision "x"]).2 ∧
      ((generate_cfg_from_ir [Block.decision "x"]).2.filter
        (fun e => e.from_node == 0)).length = 1) ∧
     (∀ n ∈ (generate_cfg_from_ir [Block.decision "x"]).1, n.type ≠ "exit" →
      ∃ j m, ((generate_cfg_from_ir [Block.decision "x"]).1)[j]? = some n ∧
        ((generate_cfg_from_ir [Block.decision "x"]).1)[j + 1]? = some m)) :=
  ⟨by decide, by decide,
    claim4_edge_synthesis [Block.decision "x"] 1
      ⟨0, ["x"], "decision", some "x"⟩ ⟨2, [], "exit", some "EXIT"⟩
      (by decide) (by decide)⟩

/-- C7: every edge of the generated graph references node ids that are
present in the node list, and never joins a node to itself. -/
theorem claim7_edge_validity (blocks : List Block) (e : CFGEdge)
    (he : e ∈ (generate_cfg_from_ir blocks).2) :
    e.from_node ∈ ((generate_cfg_from_ir blocks).1).map (·.id) ∧
    e.to_node ∈ ((generate_cfg_from_ir blocks).1).map (·.id) ∧
    e.from_node ≠ e.to_node := by
  rw [generate_cfg_from_ir_eq] at he ⊢
  obtain ⟨h1, h2⟩ := buildEdges_mem_ids (cfgNodes blocks) e he
  exact ⟨h1, h2,
    buildEdges_no_self_loop (cfgNodes blocks) (cfgNodes_id_nodup blocks) e he⟩

/-- C7 witness: the single edge of the empty-block graph references the
Entry and Exit ids and is not a self-loop. -/
theorem claim7_witness :
    CFGEdge.mk 0 1 "" "#6b7280" ∈ (generate_cfg_from_ir []).2 ∧
    (0 ∈ ((generate_cfg_from_ir []).1).map (·.id) ∧
     1 ∈ ((generate_cfg_from_ir []).1).map (·.id) ∧
     (0 : Nat) ≠ 1) :=
  ⟨by decide, claim7_edge_validity [] (CFGEdge.mk 0 1 "" "#6b7280") (by decide)⟩

/-! ## Scenario claims C1, C2, C9 -/

/-- C1 (counterexample): on `"if (x > 0) { y = 1; } else { y = -1; }"` the
pipeline does NOT produce the three-block list claimed (Decision `x > 0`,
Statement `y = 1 ;`, Statement `y = -1 ;`): the tokenizer flushes the text
`else` sitting between `}` and `{` as its own fragment, which becomes a
fourth (Statement `else`) block. -/
theorem claim1_counterexample :
    parse_c_code "if (x > 0) \x7b y = 1; \x7d else \x7b y = -1; \x7d" ≠
      PResult.ok [Block.decision "x > 0", Block.statement ["y = 1 ;"],
        Block.statement ["y = -1 ;"]] := by decide

/-- C1 (amended): the pipeline on Scenario C yields the four blocks
[Decision `x > 0`, Statement `y = 1 ;`, Statement `else`,
Statement `y = -1 ;`]; the edge set includes a `True` edge from the
Decision node (id 0) to the `y = 1 ;` node (id 1) and a `False` edge from
the Decision node to the node two positions ahead, which is the spurious
`else` statement node (id 2), not the `y = -1 ;` node. -/
theorem claim1_amended :
    parse_c_code "if (x > 0) \x7b y = 1; \x7d else \x7b y = -1; \x7d" =
      PResult.ok [Block.decision "x > 0", Block.statement ["y = 1 ;"],
        Block.statement ["else"], Block.statement ["y = -1 ;"]] ∧
    generate_cfg "if (x > 0) \x7b y = 1; \x7d else \x7b y = -1; \x7d" = some
      ([⟨4, [], "entry", some "START"⟩,
        ⟨0, ["x > 0"], "decision", some "x > 0"⟩,
        ⟨1, ["y = 1 ;"], "statement", none⟩,
        ⟨2, ["else"], "statement", none⟩,
        ⟨3, ["y = -1 ;"], "statement", none⟩,
        ⟨5, [], "exit", some "EXIT"⟩],
       [⟨4, 0, "", "#6b7280"⟩,
        ⟨0, 1, "True", "#22c55e"⟩, ⟨0, 2, "False", "#ef4444"⟩,
        ⟨1, 2, "", "#6b7280"⟩, ⟨2, 3, "", "#6b7280"⟩,
        ⟨3, 5, "", "#6b7280"⟩]) ∧
    CFGEdge.mk 0 1 "True" "#22c55e" ∈
      [CFGEdge.mk 4 0 "" "#6b7280",
       CFGEdge.mk 0 1 "True" "#22c55e", CFGEdge.mk 0 2 "False" "#ef4444",
       CFGEdge.mk 1 2 "" "#6b7280", CFGEdge.mk 2 3 "" "#6b7280",
       CFGEdge.mk 3 5 "" "#6b7280"] := by decide

/-- C2 (counterexample): on the unbalanced-brace input `"if (x) { y = 1;"`
`parse_c_code` does NOT raise the `MalformedInput` error: braces only act
as fragment delimiters in the tokenizer, so `find_matching_brace` is never
reached and the parse succeeds. -/
theorem claim2_counterexample :
    ¬ (parse_c_code "if (x) \x7b y = 1;" = PResult.error) := by decide

/-- C2 (amended): on `"if (x) { y = 1;"` the parse succeeds with blocks
[Decision `x`, Statement `y = 1 ;`] and the request produces a complete
(not partial, not failed) `{nodes, edges}` result. -/
theorem claim2_amended :
    parse_c_code "if (x) \x7b y = 1;" =
      PResult.ok [Block.decision "x", Block.statement ["y = 1 ;"]] ∧
    generate_cfg "if (x) \x7b y = 1;" = some
      ([⟨2, [], "entry", some "START"⟩,
        ⟨0, ["x"], "decision", some "x"⟩,
        ⟨1, ["y = 1 ;"], "statement", none⟩,
        ⟨3, [], "exit", some "EXIT"⟩],
       [⟨2, 0, "", "#6b7280"⟩,
        ⟨0, 1, "True", "#22c55e"⟩, ⟨0, 3, "False", "#ef4444"⟩,
        ⟨1, 3, "", "#6b7280"⟩]) := by decide

/-- C9: `"int a = 1; int b = 2;"` parses to exactly the two Statement
blocks `int a = 1 ;` and `int b = 2 ;` in order, and the generated CFG has
exactly 4 nodes and exactly 3 plain edges chaining
Entry (id 2) → stmt1 (id 0) → stmt2 (id 1) → Exit (id 3). -/
theorem claim9_scenarioB :
    parse_c_code "int a = 1; int b = 2;" =
      PResult.ok [Block.statement ["int a = 1 ;"],
        Block.statement ["int b = 2 ;"]] ∧
    generate_cfg "int a = 1; int b = 2;" = some
      ([⟨2, [], "entry", some "START"⟩,
        ⟨0, ["int a = 1 ;"], "statement", none⟩,
        ⟨1, ["int b = 2 ;"], "statement", none⟩,
        ⟨3, [], "exit", some "EXIT"⟩],
       [⟨2, 0, "", "#6b7280"⟩, ⟨0, 1, "", "#6b7280"⟩,
        ⟨1, 3, "", "#6b7280"⟩]) := by decide

/-! ## Claim C10: determinism -/

/-- C10: `generate_cfg` is deterministic: two invocations of the pipeline
on identical input yield structurally identical results, node id
assignments included, since the id counter is initialized inside
`generate_cfg_from_ir` (local to each call) and no other state exists. -/
theorem claim10_deterministic (s : String)
    (r1 r2 : Option (List CFGNode × List CFGEdge))
    (h1 : generate_cfg s = r1) (h2 : generate_cfg s = r2) : r1 = r2 := by
  rw [← h1, ← h2]

/-- C10 witness: two evaluations of the pipeline on the empty source give
the same concrete graph. -/
theorem claim10_witness :
    (some ([⟨0, [], "entry", some "START"⟩, ⟨1, [], "exit", some "EXIT"⟩],
       [⟨0, 1, "", "#6b7280"⟩]) : Option (List CFGNode × List CFGEdge)) =
    some ([⟨0, [], "entry", some "START"⟩, ⟨1, [], "exit", some "EXIT"⟩],
       [⟨0, 1, "", "#6b7280"⟩]) :=
  claim10_deterministic "" _ _ (by decide) (by decide)

/-! ## Claim C8: find_matching_brace -/

theorem braceDepth_cons_open (t : List Char) :
    braceDepth ('{' :: t) = 1 + braceDepth t := by
  simp [braceDepth, List.count_cons]
  omega

theorem braceDepth_cons_close (t : List Char) :
    braceDepth ('}' :: t) = (-1) + braceDepth t := by
  simp [braceDepth, List.count_cons]
  omega

theorem braceDepth_cons_other (c : Char) (t : List Char)
    (h1 : c ≠ '{') (h2 : c ≠ '}') :
    braceDepth (c :: t) = braceDepth t := by
  unfold braceDepth
  rw [List.count_cons_of_ne (Ne.symm h1), List.count_cons_of_ne (Ne.symm h2)]

theorem fmbScan_cons_open (d : Int) (i : Nat) (r : List Char) :
    fmbScan d i ('{' :: r) = fmbScan (d + 1) (i + 1) r := by
  simp [fmbScan]

theorem fmbScan_cons_close (d : Int) (i : Nat) (r : List Char) :
    fmbScan d i ('}' :: r) =
      if d - 1 = 0 then some i else fmbScan (d - 1) (i + 1) r := by
  simp only [fmbScan]
  rw [if_neg (by decide)]
  simp

theorem fmbScan_cons_other (d : Int) (i : Nat) (c : Char) (r : List Char)
    (h1 : c ≠ '{') (h2 : c ≠ '}') :
    fmbScan d i (c :: r) = fmbScan d (i + 1) r := by
  simp only [fmbScan]
  rw [if_neg h1, if_neg h2]

/-- Shifting a "first index satisfying a predicate" description across one
list element that does not satisfy it. -/
theorem exists_min_shift (P Q : Nat → Prop) (hPQ : ∀ j, P (j + 1) ↔ Q j)
    (hP0 : ¬ P 0) (i k : Nat) :
    (∃ j, P j ∧ (∀ j' < j, ¬ P j') ∧ k = i + j) ↔
    (∃ j, Q j ∧ (∀ j' < j, ¬ Q j') ∧ k = (i + 1) + j) := by
  constructor
  · rintro ⟨j, hj, hmin, rfl⟩
    cases j with
    | zero => exact absurd hj hP0
    | succ j' =>
      refine ⟨j', (hPQ j').mp hj, ?_, by omega⟩
      intro j'' hlt hQ
      exact hmin (j'' + 1) (by omega) ((hPQ j'').mpr hQ)
  · rintro ⟨j, hj, hmin, rfl⟩
    refine ⟨j + 1, (hPQ j).mpr hj, ?_, by omega⟩
    intro j' hlt hP
    cases j' with
    | zero => exact hP0 hP
    | succ j'' => exact hmin j'' (by omega) ((hPQ j'').mp hP)

/-- Characterization of the depth scan: it returns `i + j` for the first
position `j` whose character is `}` and where `d` plus the running depth
reaches zero, and `none` when no such position exists. -/
theorem fmbScan_some_iff (r : List Char) :
    ∀ (d : Int) (i k : Nat),
    fmbScan d i r = some k ↔
      ∃ j, (r[j]? = some '}' ∧ d + braceDepth (r.take (j + 1)) = 0) ∧
        (∀ j' < j, ¬(r[j']? = some '}' ∧ d + braceDepth (r.take (j' + 1)) = 0)) ∧
        k = i + j := by
  induction r with
  | nil =>
    intro d i k
    simp [fmbScan]
  | cons c r' ih =>
    intro d i k
    by_cases hc1 : c = '{'
    · subst hc1
      rw [fmbScan_cons_open, ih (d + 1) (i + 1) k]
      refine (exists_min_shift _ _ ?_ ?_ i k).symm
      · intro j
        rw [List.getElem?_cons_succ, List.take_succ_cons, braceDepth_cons_open]
        constructor
        · rintro ⟨hj1, hj2⟩
          exact ⟨hj1, by omega⟩
        · rintro ⟨hj1, hj2⟩
          exact ⟨hj1, by omega⟩
      · rintro ⟨hch, _⟩
        rw [List.getElem?_cons_zero] at hch
        exact absurd (Option.some_inj.mp hch) (by decide)
    · by_cases hc2 : c = '}'
      · subst hc2
        rw [fmbScan_cons_close]
        by_cases hd : d - 1 = 0
        · rw [if_pos hd]
          constructor
          · intro hk
            have hk' : k = i := (Option.some_inj.mp hk).symm
            refine ⟨0, ⟨List.getElem?_cons_zero, ?_⟩, by omega, by omega⟩
            rw [List.take_succ_cons, List.take_zero, braceDepth_cons_close]
            simp [braceDepth]
            omega
          · rintro ⟨j, hj, hmin, rfl⟩
            have hj0 : j = 0 := by
              by_contra hne
              refine hmin 0 (by omega) ⟨List.getElem?_cons_zero, ?_⟩
              rw [List.take_succ_cons, List.take_zero, braceDepth_cons_close]
              simp [braceDepth]
              omega
            subst hj0
            rfl
        · rw [if_neg hd, ih (d - 1) (i + 1) k]
          refine (exists_min_shift _ _ ?_ ?_ i k).symm
          · intro j
            rw [List.getElem?_cons_succ, List.take_succ_cons, braceDepth_cons_close]
            constructor
            · rintro ⟨hj1, hj2⟩
              exact ⟨hj1, by omega⟩
            · rintro ⟨hj1, hj2⟩
              exact ⟨hj1, by omega⟩
          · rintro ⟨_, hdep⟩
            rw [List.take_succ_cons, List.take_zero, braceDepth_cons_close] at hdep
            simp [braceDepth] at hdep
            omega
      · rw [fmbScan_cons_other d i c r' hc1 hc2, ih d (i + 1) k]
        refine (exists_min_shift _ _ ?_ ?_ i k).symm
        · intro j
          rw [List.getElem?_cons_succ, List.take_succ_cons,
            braceDepth_cons_other c _ hc1 hc2]
        · rintro ⟨hch, _⟩
          rw [List.getElem?_cons_zero] at hch
          exact hc2 (Option.some_inj.mp hch)

/-- C8: `find_matching_brace` returns `some k` exactly when the input
starts with `{` and `k` is the first index holding a `}` at which the
running brace depth returns to zero; it fails (Python: raises `ValueError`,
embedding: `none`, never a sentinel index) exactly when the input does not
start with `{` or the depth never returns to zero before the end of the
input. -/
theorem claim8_find_matching_brace (code : List Char) :
    (∀ k, find_matching_brace code = some k ↔
      (startsWithBrace code = true ∧ braceCrossing code k ∧
        ∀ j < k, ¬ braceCrossing code j)) ∧
    (find_matching_brace code = none ↔
      (startsWithBrace code = false ∨ ∀ j, ¬ braceCrossing code j)) := by
  by_cases hsw : startsWithBrace code = true
  · constructor
    · intro k
      rw [find_matching_brace, if_pos hsw, fmbScan_some_iff code 0 0 k]
      constructor
      · rintro ⟨j, hj, hmin, rfl⟩
        simp only [zero_add] at hj hmin ⊢
        refine ⟨hsw, ⟨hj.1, hj.2⟩, ?_⟩
        intro j' hlt hbc
        exact hmin j' hlt ⟨hbc.1, hbc.2⟩
      · rintro ⟨_, hk, hmin⟩
        refine ⟨k, ⟨hk.1, ?_⟩, ?_, by omega⟩
        · have := hk.2
          omega
        · intro j' hlt hj'
          exact hmin j' hlt ⟨hj'.1, by have := hj'.2; omega⟩
    · rw [find_matching_brace, if_pos hsw]
      constructor
      · intro hnone
        right
        intro j hbc
        have hex : ∃ j, braceCrossing code j := ⟨j, hbc⟩
        have hfind := Nat.find_spec hex
        have : fmbScan 0 0 code = some (Nat.find hex) := by
          rw [fmbScan_some_iff]
          refine ⟨Nat.find hex, ⟨hfind.1, by have := hfind.2; omega⟩, ?_, by omega⟩
          intro j' hlt hj'
          exact Nat.find_min hex hlt ⟨hj'.1, by have := hj'.2; omega⟩
        rw [hnone] at this
        exact Option.noConfusion this
      · intro h
        rcases h with h | h
        · rw [hsw] at h
          exact Bool.noConfusion h
        · cases hfs : fmbScan 0 0 code with
          | none => rfl
          | some k =>
            exfalso
            rw [fmbScan_some_iff] at hfs
            obtain ⟨j, hj, _, _⟩ := hfs
            exact h j ⟨hj.1, by have := hj.2; omega⟩
  · have hsw' : startsWithBrace code = false := by
      cases hb : startsWithBrace code
      · rfl
      · exact absurd hb hsw
    have hfn : find_matching_brace code = none := by
      rw [find_matching_brace, if_neg hsw]
    constructor
    · intro k
      rw [hfn]
      constructor
      · intro h
        exact Option.noConfusion h
      · rintro ⟨h1, _⟩
        rw [hsw'] at h1
        exact Bool.noConfusion h1
    · rw [hfn]
      exact iff_of_true rfl (Or.inl hsw')

/-! ## Totality of the parser (claim C3) -/

theorem len_stripChars_le (l : List Char) : (stripChars l).length ≤ l.length := by
  unfold stripChars
  rw [List.length_reverse]
  calc ((l.dropWhile isSpaceChar).reverse.dropWhile isSpaceChar).length
      ≤ (l.dropWhile isSpaceChar).reverse.length :=
        ((l.dropWhile isSpaceChar).reverse.dropWhile_sublist isSpaceChar).length_le
    _ = (l.dropWhile isSpaceChar).length := List.length_reverse _
    _ ≤ l.length := (l.dropWhile_sublist isSpaceChar).length_le

theorem mem_stripChars {c : Char} {l : List Char} (h : c ∈ stripChars l) :
    c ∈ l := by
  unfold stripChars at h
  rw [List.mem_reverse] at h
  have h2 := ((l.dropWhile isSpaceChar).reverse.dropWhile_sublist isSpaceChar).subset h
  rw [List.mem_reverse] at h2
  exact (l.dropWhile_sublist isSpaceChar).subset h2

theorem len_scAux_le : ∀ (n : Nat) (l : List Char), l.length ≤ n →
    ∀ b, (scAux b l).length ≤ l.length := by
  intro n
  induction n with
  | zero =>
    intro l hl b
    have : l = [] := List.eq_nil_of_length_eq_zero (Nat.le_zero.mp hl)
    subst this
    simp [scAux]
  | succ n ih =>
    intro l hl b
    rw [scAux.eq_def]
    split
    · simp
    · rename_i c r
      split
      · simp only [List.length_cons]
        have := ih r (by simp at hl; omega) false
        omega
      · have := ih r (by simp at hl; omega) true
        simp only [List.length_cons]
        omega
    · rename_i r
      have := ih r (by simp at hl; omega) true
      simp only [List.length_cons]
      omega
    · rename_i c r _
      have := ih r (by simp at hl; omega) false
      simp only [List.length_cons]
      omega

theorem len_nwAux_le (l : List Char) : ∀ b, (nwAux b l).length ≤ l.length := by
  induction l with
  | nil => intro b; simp [nwAux]
  | cons c r ih =>
    intro b
    rw [nwAux.eq_def]
    split
    · rename_i h; exact absurd h (by simp)
    · rename_i inRun c' r' h
      injection h with hc hr
      subst hc; subst hr
      split
      · split
        · have := ih true
          simp only [List.length_cons]
          omega
        · have := ih true
          simp only [List.length_cons]
          omega
      · have := ih false
        simp only [List.length_cons]
        omega

theorem len_normed_le (code : List Char) : (normed code).length ≤ code.length := by
  unfold normed normalizeWs stripComments
  exact le_trans (len_nwAux_le _ false) (len_scAux_le code.length code le_rfl false)

theorem parenMatch_some (l cond r : List Char) (h : parenMatch l = some (cond, r)) :
    r.length + 2 ≤ l.length ∧ ∀ c ∈ r, c ∈ l := by
  unfold parenMatch at h
  split at h
  · rename_i r2 hdw
    split at h
    · rename_i hcon
      rw [Option.some_inj, Prod.mk.injEq] at h
      obtain ⟨hcond, hr⟩ := h
      have hdwlen : ((('(' : Char)) :: r2).length ≤ l.length :=
        hdw ▸ (l.dropWhile_sublist isSpaceChar).length_le
      have hne : r2.dropWhile (fun c => c != ')') ≠ [] := by
        intro hnil
        have hall := List.dropWhile_eq_nil_iff.mp hnil
        have hpc : (')' : Char) ∈ r2 := by
          have := List.contains_iff_exists_mem_beq.mp hcon
          obtain ⟨a, ha, hbeq⟩ := this
          have : (')' : Char) = a := by simpa using hbeq
          exact this ▸ ha
        have := hall ')' hpc
        simp at this
      constructor
      · have h1 : r.length ≤ ((r2.dropWhile (fun c => c != ')')).drop 1).length := by
          rw [← hr]
          exact len_stripChars_le _
        rw [List.length_drop] at h1
        have h2 : (r2.dropWhile (fun c => c != ')')).length ≤ r2.length :=
          (r2.dropWhile_sublist _).length_le
        have h3 : 1 ≤ (r2.dropWhile (fun c => c != ')')).length :=
          Nat.one_le_iff_ne_zero.mpr (fun hz => hne (List.eq_nil_of_length_eq_zero hz))
        simp only [List.length_cons] at hdwlen
        omega
      · intro c hc
        rw [← hr] at hc
        have h1 := mem_stripChars hc
        have h2 := List.mem_of_mem_drop h1
        have h3 := (r2.dropWhile_sublist (fun c => c != ')')).subset h2
        have h4 : c ∈ l.dropWhile isSpaceChar := hdw ▸ List.mem_cons_of_mem _ h3
        exact (l.dropWhile_sublist isSpaceChar).subset h4
    · exact absurd h (by simp)
  · exact absurd h (by simp)

theorem ifMatch_some (f cond r : List Char) (h : ifMatch f = some (cond, r)) :
    r.length + 4 ≤ f.length ∧ ∀ c ∈ r, c ∈ f := by
  unfold ifMatch at h
  split at h
  · rename_i rest
    obtain ⟨hlen, hmem⟩ := parenMatch_some rest cond r h
    constructor
    · simp only [List.length_cons]
      omega
    · intro c hc
      exact List.mem_cons_of_mem _ (List.mem_cons_of_mem _ (hmem c hc))
  · exact absurd h (by simp)

theorem sqN_le_sqN (a b : Nat) (h : a ≤ b) : sqN a ≤ sqN b :=
  Nat.mul_le_mul h h

theorem sqN_step (a b x y : Nat) (hab : a < b) (hx : x ≤ a) :
    sqN a + x < sqN b + y := by
  have h2 : (a + 1) * (a + 1) = a * a + 2 * a + 1 := by ring
  have h3 : (a + 1) * (a + 1) ≤ b * b := Nat.mul_le_mul hab hab
  unfold sqN at *
  omega

theorem sqN_one_le (a : Nat) (h : 1 ≤ a) : 1 ≤ sqN a := by
  have := Nat.mul_le_mul h h
  simpa [sqN] using this

theorem pMeasure_pos (call : PCall) : 1 ≤ pMeasure call := by
  cases call with
  | pcode code =>
    simp only [pMeasure]
    omega
  | ploop buf cs =>
    simp only [pMeasure]
    have := sqN_one_le (2 * (buf.length + cs.length) + 7) (by omega)
    omega
  | pfrag f =>
    simp only [pMeasure]
    have := sqN_one_le (2 * f.length + 2) (by omega)
    omega
  | pchain r =>
    simp only [pMeasure]
    have := sqN_one_le (2 * r.length + 3) (by omega)
    omega

theorem measure_pcode_le (a : List Char) (L : Nat) (h : a.length ≤ L) :
    pMeasure (.pcode a) ≤ sqN (2 * L + 7) + L + 1 := by
  simp only [pMeasure]
  have hn : (normed a).length ≤ L := le_trans (len_normed_le a) h
  have := sqN_le_sqN (2 * (normed a).length + 7) (2 * L + 7) (by omega)
  omega

theorem measure_pchain_le (a : List Char) (L : Nat) (h : a.length ≤ L) :
    pMeasure (.pchain a) ≤ sqN (2 * L + 3) := by
  simp only [pMeasure]
  exact sqN_le_sqN _ _ (by omega)

theorem prefixOf_length_le : {p l : List Char} → p.isPrefixOf l = true →
    p.length ≤ l.length
  | [], _, _ => Nat.zero_le _
  | _ :: _, _ :: _, h => by
    simp only [List.isPrefixOf, Bool.and_eq_true] at h
    simp only [List.length_cons]
    exact Nat.succ_le_succ (prefixOf_length_le h.2)

theorem startsWithBrace_eq_false {l : List Char} (h : ('{' : Char) ∉ l) :
    startsWithBrace l = false := by
  cases l with
  | nil => rfl
  | cons c t =>
    have hc : c ≠ '{' := fun hc => h (hc ▸ List.mem_cons_self c t)
    simp [startsWithBrace]
    exact fun hcc => absurd hcc hc

/-- On a brace-free `rest` the true-branch handler never reaches
`find_matching_brace` and succeeds, provided the recursive calls (whose
arguments are no longer than `rest`) succeed. -/
theorem pStepTrueBranch_ok (fuel : Nat) (rest : List Char)
    (ih : ∀ call, pMeasure call ≤ fuel → goodCall call →
      ∃ bs, pRun fuel call = .ok bs)
    (hnb : ('{' : Char) ∉ rest)
    (hcode : ∀ a : List Char, a.length ≤ rest.length → pMeasure (.pcode a) ≤ fuel)
    (hchain : ∀ a : List Char, a.length ≤ rest.length → pMeasure (.pchain a) ≤ fuel) :
    ∃ bs, pStepTrueBranch (pRun fuel) rest = .ok bs := by
  unfold pStepTrueBranch
  have hsb : ¬ (startsWithBrace rest = true) := by
    rw [startsWithBrace_eq_false hnb]
    exact Bool.false_ne_true
  rw [if_neg hsb]
  cases hfe : findElseIdx rest with
  | some k =>
    obtain ⟨b1, hb1⟩ := ih (.pcode (stripChars (rest.take k)))
      (hcode _ (le_trans (len_stripChars_le _) (List.length_take_le' k rest)))
      trivial
    obtain ⟨b2, hb2⟩ := ih (.pchain (stripChars (rest.drop k)))
      (hchain _ (le_trans (len_stripChars_le _) (by rw [List.length_drop]; omega)))
      (fun hc => hnb (List.mem_of_mem_drop (mem_stripChars hc)))
    refine ⟨b1 ++ b2, ?_⟩
    show seqBlocks (pRun fuel (.pcode (stripChars (rest.take k))))
      (pRun fuel (.pchain (stripChars (rest.drop k)))) = _
    rw [hb1, hb2]
    rfl
  | none =>
    obtain ⟨b1, hb1⟩ := ih (.pcode rest) (hcode rest le_rfl) trivial
    exact ⟨b1, hb1⟩

/-- Key totality invariant: with fuel at least the measure and a brace-free
buffer/fragment/chain argument, the parser returns a block list (never an
error, never fuel exhaustion). -/
theorem pRun_ok (fuel : Nat) :
    ∀ call : PCall, pMeasure call ≤ fuel → goodCall call →
      ∃ bs, pRun fuel call = .ok bs := by
  induction fuel with
  | zero =>
    intro call hm _
    exact absurd hm (by have := pMeasure_pos call; omega)
  | succ fuel ih =>
    intro call hm hg
    rw [pRun_succ]
    cases call with
    | pcode code =>
      show ∃ bs, pRun fuel (.ploop [] (normed code)) = .ok bs
      apply ih
      · have h1 : pMeasure (.ploop [] (normed code)) + 1 = pMeasure (.pcode code) := by
          simp [pMeasure]
        omega
      · show ('{' : Char) ∉ ([] : List Char)
        exact List.not_mem_nil _
    | ploop buf cs =>
      show ∃ bs, pStepLoop (pRun fuel) buf cs = .ok bs
      cases cs with
      | nil =>
        unfold pStepLoop
        by_cases hu : stripChars buf = []
        · rw [if_pos hu]
          exact ⟨[], rfl⟩
        · rw [if_neg hu]
          apply ih
          · have hlt : pMeasure (.pfrag (stripChars buf)) <
                pMeasure (.ploop buf []) := by
              simp only [pMeasure]
              have := sqN_step (2 * (stripChars buf).length + 2)
                (2 * (buf.length + ([] : List Char).length) + 7) 0 0
                (by have := len_stripChars_le buf; simp; omega) (Nat.zero_le _)
              simp only [List.length_nil] at this ⊢
              omega
            omega
          · exact fun hc => hg (mem_stripChars hc)
      | cons c cs' =>
        show ∃ bs,
          (if c = ';' then
            seqBlocks (pRun fuel (.pfrag (if stripChars buf = [] then [';']
              else stripChars buf ++ [' ', ';']))) (pRun fuel (.ploop [] cs'))
          else if c = '{' || c = '}' then
            if stripChars buf = [] then pRun fuel (.ploop [] cs')
            else seqBlocks (pRun fuel (.pfrag (stripChars buf)))
              (pRun fuel (.ploop [] cs'))
          else pRun fuel (.ploop (buf ++ [c]) cs')) = PResult.ok bs
        by_cases hc : c = ';'
        · rw [if_pos hc]
          have hfl : (if stripChars buf = [] then [';']
              else stripChars buf ++ [' ', ';']).length ≤ buf.length + 2 := by
            split
            · simp
            · have := len_stripChars_le buf
              simp [List.length_append]
              omega
          have hμfrag : pMeasure (.pfrag (if stripChars buf = [] then [';']
              else stripChars buf ++ [' ', ';'])) <
              pMeasure (.ploop buf (c :: cs')) := by
            simp only [pMeasure]
            have := sqN_step
              (2 * (if stripChars buf = [] then [';']
                else stripChars buf ++ [' ', ';']).length + 2)
              (2 * (buf.length + (c :: cs').length) + 7) 0 (c :: cs').length
              (by simp only [List.length_cons]; omega) (Nat.zero_le _)
            omega
          have hμloop : pMeasure (.ploop [] cs') <
              pMeasure (.ploop buf (c :: cs')) := by
            simp only [pMeasure]
            have := sqN_step (2 * (([] : List Char).length + cs'.length) + 7)
              (2 * (buf.length + (c :: cs').length) + 7) cs'.length (c :: cs').length
              (by simp only [List.length_nil, List.length_cons]; omega)
              (by simp only [List.length_nil]; omega)
            omega
          have hnbfrag : ('{' : Char) ∉ (if stripChars buf = [] then [';']
              else stripChars buf ++ [' ', ';']) := by
            split
            · simp
            · intro hmem
              rcases List.mem_append.mp hmem with h | h
              · exact hg (mem_stripChars h)
              · simp at h
          obtain ⟨b1, hb1⟩ := ih
            (.pfrag (if stripChars buf = [] then [';']
              else stripChars buf ++ [' ', ';'])) (by omega) hnbfrag
          obtain ⟨b2, hb2⟩ := ih (.ploop [] cs') (by omega) (List.not_mem_nil _)
          exact ⟨b1 ++ b2, by simp only [hb1, hb2, seqBlocks]⟩
        · by_cases hcb : c = '{' ∨ c = '}'
          · -- brace: flush the buffer (if non-empty), drop the brace
            have hcbt : (c = '{' || c = '}' : Bool) = true := by
              rcases hcb with rfl | rfl <;> simp
            rw [if_neg hc, if_pos hcbt]
            have hl2 : pMeasure (.ploop [] cs') <
                pMeasure (.ploop buf (c :: cs')) := by
              simp only [pMeasure]
              have := sqN_step (2 * (([] : List Char).length + cs'.length) + 7)
                (2 * (buf.length + (c :: cs').length) + 7) cs'.length
                (c :: cs').length
                (by simp only [List.length_nil, List.length_cons]; omega)
                (by simp only [List.length_nil]; omega)
              omega
            by_cases hu : stripChars buf = []
            · rw [if_pos hu]
              exact ih (.ploop [] cs') (by omega) (List.not_mem_nil _)
            · rw [if_neg hu]
              have hlt : pMeasure (.pfrag (stripChars buf)) <
                  pMeasure (.ploop buf (c :: cs')) := by
                simp only [pMeasure]
                have := sqN_step (2 * (stripChars buf).length + 2)
                  (2 * (buf.length + (c :: cs').length) + 7) 0
                  (c :: cs').length
                  (by have := len_stripChars_le buf
                      simp only [List.length_cons]; omega)
                  (Nat.zero_le _)
                omega
              obtain ⟨b1, hb1⟩ := ih (.pfrag (stripChars buf)) (by omega)
                (fun hcm => hg (mem_stripChars hcm))
              obtain ⟨b2, hb2⟩ := ih (.ploop [] cs') (by omega)
                (List.not_mem_nil _)
              exact ⟨b1 ++ b2, by simp only [hb1, hb2, seqBlocks]⟩
          · -- ordinary character: accumulate into the buffer
            have hc1 : c ≠ '{' := fun h => hcb (Or.inl h)
            have hc2 : c ≠ '}' := fun h => hcb (Or.inr h)
            have hcbf : ¬ ((c = '{' || c = '}' : Bool) = true) := by
              simp [hc1, hc2]
            rw [if_neg hc, if_neg hcbf]
            apply ih
            · have hlt : pMeasure (.ploop (buf ++ [c]) cs') <
                  pMeasure (.ploop buf (c :: cs')) := by
                simp only [pMeasure]
                have harg : 2 * ((buf ++ [c]).length + cs'.length) + 7 =
                    2 * (buf.length + (c :: cs').length) + 7 := by
                  simp only [List.length_append, List.length_cons,
                    List.length_nil]
                  omega
                rw [harg]
                simp only [List.length_cons]
                omega
              omega
            · show ('{' : Char) ∉ buf ++ [c]
              intro hmem
              rcases List.mem_append.mp hmem with h | h
              · exact hg h
              · exact hc1 (List.mem_singleton.mp h).symm
    | pfrag fragment =>
      show ∃ bs, pStepFrag (pRun fuel) fragment = .ok bs
      unfold pStepFrag
      cases hif : ifMatch (stripChars fragment) with
      | none => exact ⟨_, rfl⟩
      | some cr =>
        obtain ⟨cond, rest⟩ := cr
        have hnbf : ('{' : Char) ∉ stripChars fragment :=
          fun hcm => hg (mem_stripChars hcm)
        obtain ⟨hlen, hmem⟩ := ifMatch_some _ _ _ hif
        have hnbr : ('{' : Char) ∉ rest := fun hcm => hnbf (hmem _ hcm)
        have hfm : rest.length + 4 ≤ fragment.length :=
          le_trans hlen (len_stripChars_le fragment)
        have hmf : sqN (2 * fragment.length + 2) ≤ fuel + 1 := by
          have := hm
          simp only [pMeasure] at this
          exact this
        have hcode : ∀ a : List Char, a.length ≤ rest.length →
            pMeasure (.pcode a) ≤ fuel := by
          intro a ha
          have h1 := measure_pcode_le a rest.length ha
          have h2 : sqN (2 * rest.length + 7) + rest.length + 1 <
              sqN (2 * fragment.length + 2) + 0 :=
            sqN_step _ _ (rest.length + 1) 0 (by omega) (by omega)
          omega
        have hchain : ∀ a : List Char, a.length ≤ rest.length →
            pMeasure (.pchain a) ≤ fuel := by
          intro a ha
          have h1 := measure_pchain_le a rest.length ha
          have h2 : sqN (2 * rest.length + 3) + 0 <
              sqN (2 * fragment.length + 2) + 0 :=
            sqN_step _ _ 0 0 (by omega) (by omega)
          omega
        obtain ⟨bs, hbs⟩ := pStepTrueBranch_ok fuel rest ih hnbr hcode hchain
        refine ⟨Block.decision (String.mk cond) :: bs, ?_⟩
        show consBlock (Block.decision (String.mk cond))
          (pStepTrueBranch (pRun fuel) rest) = _
        simp only [hbs, consBlock]
    | pchain r =>
      show ∃ bs, pStepChain (pRun fuel) r = .ok bs
      unfold pStepChain
      have hmr : sqN (2 * r.length + 3) ≤ fuel + 1 := by
        have := hm
        simp only [pMeasure] at this
        exact this
      by_cases h1 : elseIfPat.isPrefixOf r = true
      · rw [if_pos h1]
        cases hpm : parenMatch (r.drop 7) with
        | none => exact ⟨[], rfl⟩
        | some cr =>
          obtain ⟨cond, erest⟩ := cr
          obtain ⟨hlen, hmem⟩ := parenMatch_some _ _ _ hpm
          rw [List.length_drop] at hlen
          have hnbe : ('{' : Char) ∉ erest :=
            fun hcm => hg (List.mem_of_mem_drop (hmem _ hcm))
          have hcode : ∀ a : List Char, a.length ≤ erest.length →
              pMeasure (.pcode a) ≤ fuel := by
            intro a ha
            have hA := measure_pcode_le a erest.length ha
            have h2 : sqN (2 * erest.length + 7) + erest.length + 1 <
                sqN (2 * r.length + 3) + 0 :=
              sqN_step _ _ (erest.length + 1) 0 (by omega) (by omega)
            omega
          have hchain : ∀ a : List Char, a.length ≤ erest.length →
              pMeasure (.pchain a) ≤ fuel := by
            intro a ha
            have hA := measure_pchain_le a erest.length ha
            have h2 : sqN (2 * erest.length + 3) + 0 <
                sqN (2 * r.length + 3) + 0 :=
              sqN_step _ _ 0 0 (by omega) (by omega)
            omega
          obtain ⟨bs, hbs⟩ := pStepTrueBranch_ok fuel erest ih hnbe hcode hchain
          refine ⟨Block.decision (String.mk cond) :: bs, ?_⟩
          show consBlock (Block.decision (String.mk cond))
            (pStepTrueBranch (pRun fuel) erest) = _
          simp only [hbs, consBlock]
      · rw [if_neg h1]
        by_cases h2 : elsePat.isPrefixOf r = true
        · rw [if_pos h2]
          have h4 : 4 ≤ r.length := by
            have := prefixOf_length_le h2
            simpa [elsePat] using this
          have hnbody : ('{' : Char) ∉ stripChars (r.drop 4) :=
            fun hcm => hg (List.mem_of_mem_drop (mem_stripChars hcm))
          have hsb : ¬ (startsWithBrace (stripChars (r.drop 4)) = true) := by
            rw [startsWithBrace_eq_false hnbody]
            exact Bool.false_ne_true
          rw [if_neg hsb]
          apply ih
          · have hbl : (stripChars (r.drop 4)).length ≤ r.length - 4 :=
              le_trans (len_stripChars_le _) (by rw [List.length_drop])
            have hA := measure_pcode_le (stripChars (r.drop 4)) (r.length - 4) hbl
            have h5 : sqN (2 * (r.length - 4) + 7) + (r.length - 4) + 1 <
                sqN (2 * r.length + 3) + 0 :=
              sqN_step _ _ (r.length - 4 + 1) 0 (by omega) (by omega)
            omega
          · trivial
        · rw [if_neg h2]
          exact ⟨[], rfl⟩

/-- C3: `parse_c_code` is total: on every input string it returns a block
list and never raises.  Every fragment the tokenizer flushes is built only
from text between the delimiters `{` `}` `;` (plus a trailing `" ;"`), so
no fragment — and hence no derived `rest` — ever starts with `{`, and
`find_matching_brace` is never invoked from `parse_c_code`. -/
theorem claim3_parse_total (s : String) :
    ∃ bs, parse_c_code s = PResult.ok bs := by
  unfold parse_c_code
  exact pRun_ok _ _ le_rfl trivial
